import Mathlib

/-!
Verification of the decimal multiply/divide engine of
`FunctionsDecimalArithmetics` (structs `DecimalOpHerpers`,
`DivideDecimalsImpl`, `MultiplyDecimalsImpl`,
`FunctionsDecimalArithmetics`).

Digit sequences (`std::vector<UInt8>`, most significant digit first) are
modelled as `List Nat`; the 256-bit signed magnitudes (`Int256`) as `Int`
(all reachable values fit far below `2 ^ 255`, noted at each definition);
the 32-bit `int` remainder of the divide kernel wraps through `wrap32`.
C++ behaviour that is undefined or erroneous (out-of-bounds vector reads,
`pop_back` on an empty vector, division by zero, a loop that cannot exit)
is made explicit: fallible code returns `Except`, and values obtained by
reading past the end of a vector are supplied by an oracle `g` together
with a flag recording that such a read happened.
-/

/-- Error/abnormal-termination outcomes of the transforms.  `overflow`
is the thrown `DECIMAL_OVERFLOW` exception; the others are C++ undefined
or erroneous executions made explicit: `popEmpty` is `pop_back` on an
empty vector, `divByZero` an integer division by zero, `noTerm` a loop
that can never exit. -/
inductive ExecErr where
  | overflow
  | popEmpty
  | divByZero
  | noTerm
deriving DecidableEq, Repr

deriving instance DecidableEq for Except

/-- Value of a most-significant-first digit sequence. -/
def valM (l : List Nat) : Nat := l.foldl (fun a d => 10 * a + d) 0

/-- Value of a least-significant-first digit sequence (the layout of the
work buffer inside `DecimalOpHerpers::multiply` before its final
`std::reverse`). -/
def valL : List Nat → Nat
  | [] => 0
  | d :: ds => d + 10 * valL ds

/-- Recursion core of `DecimalOpHerpers::getDigits` with an explicit
structural fuel; the wrapper `getDigits` passes fuel `x.toNat`, which is
never exhausted (each recursive call divides the argument by 10), so the
fuel is purely a termination measure and the two branches are exactly the
source's `if (x >= 10) result = getDigits(x / 10); result.push_back(x % 10)`. -/
def getDigitsF : Nat → Int → List Nat
  | 0, x => [(x.tmod 10).toNat]
  | f + 1, x =>
    if 10 ≤ x then getDigitsF f (x.tdiv 10) ++ [(x.tmod 10).toNat]
    else [(x.tmod 10).toNat]

/-- Embedding of `DecimalOpHerpers::getDigits`: most-significant-first
decimal digits of a (non-negative) `Int256`, by recursive division by 10.
C++ `/` and `%` truncate toward zero, hence `Int.tdiv` / `Int.tmod`; the
narrowing of `x % 10` to `UInt8` is exact for the non-negative arguments
the callers pass. -/
def getDigits (x : Int) : List Nat := getDigitsF x.toNat x

/-- Recursion core of the proof-side twin `natDigits`, same fuel device. -/
def natDigitsF : Nat → Nat → List Nat
  | 0, n => [n % 10]
  | f + 1, n =>
    if 10 ≤ n then natDigitsF f (n / 10) ++ [n % 10]
    else [n]

/-- Proof-side twin of `getDigits` on `Nat` (same recursion). -/
def natDigits (n : Nat) : List Nat := natDigitsF n n

/-- Embedding of `DecimalOpHerpers::fromDigits`: iterate the digits from
least significant, accumulating `result += multiplier * digit;
multiplier *= 10`.  `Int256` overflow cannot occur on reachable inputs
(at most 76 digits, value below `10 ^ 76 < 2 ^ 255`). -/
def fromDigits (digits : List Nat) : Int :=
  (digits.reverse.foldl
    (fun (acc : Int × Int) (d : Nat) => (acc.1 + acc.2 * (d : Int), acc.2 * 10))
    ((0 : Int), (1 : Int))).1

/-- Leading-zero stripping used to state the round-trip contract; the
all-zero sequence strips to the canonical `[0]`. -/
def stripLeadingZeros (s : List Nat) : List Nat :=
  match s.dropWhile (fun d => d == 0) with
  | [] => [0]
  | r => r

/-- One inner pass (index `j`) of `DecimalOpHerpers::multiply`.  The work
buffer `r` is least-significant-first (cell `i_n1 + i_n2` holds the
`10 ^ (i_n1 + i_n2)` digit); `num2R` is the second operand reversed, since
the C++ iterates `j` from `len2 - 1` down to `0`; `pos` is `i_n1 + i_n2`.
Each step is `sum = n1 * n2 + result[i_n1 + i_n2] + carry;
carry = sum / 10; result[i_n1 + i_n2] = sum % 10`, and when the digits are
exhausted the final carry is added into the next cell
(`if (carry > 0) result[i_n1 + i_n2] += carry`). -/
def mulInner (n1 : Nat) : List Nat → List Nat → Nat → Nat → List Nat
  | [], r, pos, carry =>
    if 0 < carry then r.set pos (r.getD pos 0 + carry) else r
  | d :: ds, r, pos, carry =>
    let sum := n1 * d + r.getD pos 0 + carry
    mulInner n1 ds (r.set pos (sum % 10)) (pos + 1) (sum / 10)

/-- Outer loop (index `i`) of `DecimalOpHerpers::multiply`: iterates the
first operand reversed (the C++ iterates `i` from `len1 - 1` down to `0`)
with the offset `i_n1` starting at `0` and incremented per pass. -/
def mulOuter : List Nat → List Nat → List Nat → Nat → List Nat
  | [], _, r, _ => r
  | d :: ds, num2R, r, iN1 =>
    mulOuter ds num2R (mulInner d num2R r iN1 0) (iN1 + 1)

/-- Embedding of `DecimalOpHerpers::multiply`.  Faithful detail: the final
leading-zero scan of the source computes the index `i` of the most
significant nonzero cell but never truncates the vector with it — the
scan only detects the all-zero buffer (`i == -1`, return `{0}`), and
otherwise the whole `len1 + len2` buffer is reversed and returned, so
leading zeros are NOT stripped. -/
def multiply (num1 num2 : List Nat) : List Nat :=
  if num1.length = 0 ∨ num2.length = 0 then [0]
  else
    let res := mulOuter num1.reverse num2.reverse
      (List.replicate (num1.length + num2.length) 0) 0
    if res.all (fun d => d == 0) then [0] else res.reverse

/-- `count` successive `pop_back`s on a digit vector; `pop_back` on an
empty vector is C++ undefined behaviour, surfaced as `popEmpty`. -/
def popBackN : Nat → List Nat → Except ExecErr (List Nat)
  | 0, l => .ok l
  | k + 1, l =>
    if l.isEmpty then .error .popEmpty else popBackN k l.dropLast

/-- Embedding of `MultiplyDecimalsImpl::execute`.  `a`, `b` are the raw
decimal magnitudes (`a.value`, `b.value`), `sa`, `sb`, `rs` the scales
`scale_a`, `scale_b`, `result_scale`.  The two rescaling loops use `UInt8`
counters in the source; for the scales the validator admits (at most 76)
the iteration counts stay below 256, so plain counts are exact.  The
returned `Decimal256` holds `sign_a * sign_b * fromDigits(multiplied)`,
exact in `Int` because the length check keeps the magnitude below
`10 ^ 76 < 2 ^ 255`. -/
def multiplyExecute (a b : Int) (sa sb rs : Nat) : Except ExecErr Int :=
  let signA : Int := if a < 0 then -1 else 1
  let signB : Int := if b < 0 then -1 else 1
  let aDigits := getDigits (a * signA)
  let bDigits := getDigits (b * signB)
  let multiplied := multiply aDigits bDigits
  let padded :=
    if sa + sb < rs then multiplied ++ List.replicate (rs - (sa + sb)) 0
    else multiplied
  match (if rs < sa + sb then popBackN (sa + sb - rs) padded else .ok padded) with
  | .error e => .error e
  | .ok m =>
    if 76 < m.length then .error .overflow
    else .ok (signA * signB * fromDigits m)

/-- Two's-complement wrap to a C `int` (32 bits): the divide kernel keeps
its running remainder `temp` in a plain `int`, so every store into it
narrows to this range. -/
def wrap32 (x : Int) : Int := (x + 2 ^ 31) % 2 ^ 32 - 2 ^ 31

/-- A read `number[i]` as `std::vector::operator[]` performs it: in bounds
it returns the stored digit; out of bounds it is undefined behaviour — the
value is supplied by the oracle `g` and the read is flagged in the second
component. -/
def readDigit (g : Nat → Nat) (number : List Nat) (i : Nat) : Nat × Bool :=
  if h : i < number.length then (number.get ⟨i, h⟩, false) else (g i, true)

/-- The seeding loop of `DecimalOpHerpers::divide`:
`while (temp < divisor) temp = temp * 10 + (number[++idx]);`.
`temp` is a C `int`, so the update wraps through `wrap32`.  `fuel` is a
structural iteration bound (the loop has no intrinsic one once it runs
past the digits); exhausting it is reported as `noTerm`. -/
def seedLoop (g : Nat → Nat) (number : List Nat) (d : Int) :
    Nat → Int → Nat → Bool → Except ExecErr (Int × Nat × Bool)
  | 0, temp, idx, oob =>
    if temp < d then .error .noTerm else .ok (temp, idx, oob)
  | fuel + 1, temp, idx, oob =>
    if temp < d then
      let rd := readDigit g number (idx + 1)
      seedLoop g number d fuel (wrap32 (temp * 10 + (rd.1 : Int))) (idx + 1)
        (oob || rd.2)
    else .ok (temp, idx, oob)

/-- The quotient loop of `DecimalOpHerpers::divide`:
`while (int(number.size()) > idx) { ans.push_back(temp / divisor);
temp = (temp % divisor) * 10 + number[++idx]; }`.
`k` counts the remaining iterations, `number.length - idx`, so the C++
condition `size > idx` is `0 < k`.  Each body pushes `temp / divisor`
narrowed to `UInt8` (mod 256) and reads `number[++idx]`; on the final
iteration `idx + 1` equals `number.size()` — an out-of-bounds read whose
value lands in the dead final `temp`.  A zero divisor makes the body's
division undefined behaviour, surfaced as `divByZero`. -/
def quotLoop (g : Nat → Nat) (number : List Nat) (d : Int) :
    Nat → Int → Nat → Bool → Except ExecErr (List Nat × Bool)
  | 0, _, _, oob => .ok ([], oob)
  | k + 1, temp, idx, oob =>
    if d = 0 then .error .divByZero
    else
      let q := ((temp.tdiv d) % 256).toNat
      let rd := readDigit g number (idx + 1)
      match quotLoop g number d k (wrap32 (temp.tmod d * 10 + (rd.1 : Int)))
          (idx + 1) (oob || rd.2) with
      | .error e => .error e
      | .ok (ans, o) => .ok (q :: ans, o)

/-- Embedding of `DecimalOpHerpers::divide`: `int temp = number[idx]` with
`idx = 0` (already an out-of-bounds read on an empty vector), the seeding
loop, the quotient loop, and `{0}` when no quotient digit was pushed. -/
def divide (g : Nat → Nat) (fuel : Nat) (number : List Nat) (divisor : Int) :
    Except ExecErr (List Nat × Bool) :=
  let rd0 := readDigit g number 0
  match seedLoop g number divisor fuel ((rd0.1 : Nat) : Int) 0 rd0.2 with
  | .error e => .error e
  | .ok (temp, idx, oob) =>
    match quotLoop g number divisor (number.length - idx) temp idx oob with
    | .error e => .error e
    | .ok (ans, o) => if ans.isEmpty then .ok ([0], o) else .ok (ans, o)

/-- Embedding of `DivideDecimalsImpl::execute`.  The digits of `|a|` are
padded with `scale_b - scale_a` trailing zeros (an `int` count: no padding
when negative, modelled by the truncated `Nat` subtraction) and then with
`result_scale` zeros.  Faithful detail: the kernel is invoked with
`b.value` itself, NOT `|b|`.  The `Decimal256` result is
`sign_a * sign_b * fromDigits(divided)`, exact in `Int` thanks to the
76-digit check.  The out-of-bounds flag of the kernel is dropped, as the
program has no visible trace of those reads; theorems quantify over the
oracle `g` instead. -/
def divideExecute (g : Nat → Nat) (fuel : Nat) (a b : Int) (sa sb rs : Nat) :
    Except ExecErr Int :=
  let signA : Int := if a < 0 then -1 else 1
  let signB : Int := if b < 0 then -1 else 1
  let aDigits := (getDigits (a * signA) ++ List.replicate (sb - sa) 0) ++
    List.replicate rs 0
  match divide g fuel aDigits b with
  | .error e => .error e
  | .ok (divided, _) =>
    if 76 < divided.length then .error .overflow
    else .ok (signA * signB * fromDigits divided)

/-- Abstraction of an argument's (type, column) pair as
`FunctionsDecimalArithmetics::getReturnTypeImpl` inspects it: a decimal
type with its scale, an unsigned-integer column of a given bit width that
is or is not a constant and carries a value, or any other type. -/
inductive ArgKind where
  | dec (scale : Nat)
  | uint (width : Nat) (isConstCol : Bool) (val : Nat)
  | other
deriving DecidableEq, Repr

/-- Validation/abnormal outcomes of `getReturnTypeImpl`: `arity` is the
thrown NUMBER_OF_ARGUMENTS_DOESNT_MATCH, `illegalType` the thrown
ILLEGAL_TYPE_OF_ARGUMENT, and `nullDeref` the undefined behaviour of
dereferencing the null result of `checkAndGetColumnConst<ColumnUInt16>`
when the third argument is unsigned but not a constant UInt16 column. -/
inductive ValErr where
  | arity
  | illegalType
  | nullDeref
deriving DecidableEq, Repr

/-- Modelled from the spec: the framework helper `isDecimal(type)`
(decimal-category test; its body lives outside this repository). -/
def isDecimalArg : ArgKind → Bool
  | .dec _ => true
  | _ => false

/-- Modelled from the spec: the framework helper
`isUnsignedInteger(type)` (unsigned-integer-category test). -/
def isUnsignedIntegerArg : ArgKind → Bool
  | .uint _ _ _ => true
  | _ => false

/-- Modelled from the spec: `checkAndGetColumnConst<ColumnUInt16>` —
`some value` only for a constant column whose concrete type is exactly
UInt16 (width 16); `none` (a C++ null pointer) otherwise. -/
def checkAndGetColumnConstUInt16 : ArgKind → Option Nat
  | .uint 16 true v => some v
  | _ => none

/-- Modelled from the spec: `getDecimalScale(type)`; only reached on
decimal arguments. -/
def getDecimalScaleArg : ArgKind → Nat
  | .dec s => s
  | _ => 0

/-- Embedding of `FunctionsDecimalArithmetics::getReturnTypeImpl`; the
returned `DataTypeDecimal256(76, scale)` is modelled as the pair
`(precision, scale)`.  The checks follow the source order: arity 2 or 3;
both leading arguments decimal; a present third argument must be an
unsigned integer; the scale is the third argument's constant-UInt16 value
(a null-pointer dereference when `checkAndGetColumnConst` fails) or
`max(scaleA, scaleB)`; a scale above 76 is rejected. -/
def getReturnTypeImpl (args : List ArgKind) : Except ValErr (Nat × Nat) :=
  if args.length ≠ 2 ∧ args.length ≠ 3 then .error .arity
  else if ¬ isDecimalArg (args.getD 0 .other) ∨
      ¬ isDecimalArg (args.getD 1 .other) then .error .illegalType
  else if args.length = 3 ∧
      isUnsignedIntegerArg (args.getD 2 .other) = false then
    .error .illegalType
  else
    match (if args.length = 3
        then checkAndGetColumnConstUInt16 (args.getD 2 .other)
        else some (max (getDecimalScaleArg (args.getD 0 .other))
          (getDecimalScaleArg (args.getD 1 .other)))) with
    | none => .error .nullDeref
    | some scale =>
      if scale ≤ 76 then .ok (76, scale) else .error .illegalType

/-- Modelled from the spec: the surrounding IFunction framework resolves
the return type through `getReturnTypeImpl` during validation and only
afterwards lets `executeImpl` process the rows, so any validation failure
aborts the call before the row processor runs. -/
def runFunction (args : List ArgKind)
    (process : Nat × Nat → List Int) : Except ValErr (List Int) :=
  match getReturnTypeImpl args with
  | .error e => .error e
  | .ok t => .ok (process t)

-- ===== theorems =====

theorem natDigitsF_congr : ∀ (f₁ : Nat), ∀ (f₂ n : Nat), n ≤ f₁ → n ≤ f₂ →
    natDigitsF f₁ n = natDigitsF f₂ n := by
  intro f₁
  induction f₁ with
  | zero =>
    intro f₂ n h1 _
    have hn : n = 0 := by omega
    subst hn
    cases f₂ with
    | zero => rfl
    | succ g => simp [natDigitsF]
  | succ f ih =>
    intro f₂ n h1 h2
    by_cases h : 10 ≤ n
    · cases f₂ with
      | zero => omega
      | succ g =>
        show (if 10 ≤ n then natDigitsF f (n / 10) ++ [n % 10] else [n]) =
          (if 10 ≤ n then natDigitsF g (n / 10) ++ [n % 10] else [n])
        rw [if_pos h, if_pos h, ih g (n / 10) (by omega) (by omega)]
    · cases f₂ with
      | zero =>
        have hn : n = 0 := by omega
        subst hn
        simp [natDigitsF]
      | succ g =>
        show (if 10 ≤ n then _ else [n]) = (if 10 ≤ n then _ else [n])
        rw [if_neg h, if_neg h]

/-- The fuel of `natDigits` is never exhausted: it satisfies the
source's recurrence. -/
theorem natDigits_eq_unfold (n : Nat) :
    natDigits n = if 10 ≤ n then natDigits (n / 10) ++ [n % 10] else [n] := by
  by_cases h : 10 ≤ n
  · rw [if_pos h]
    show natDigitsF n n = _
    obtain ⟨m, hm⟩ : ∃ m, n = m + 1 := ⟨n - 1, by omega⟩
    rw [hm]
    show (if 10 ≤ m + 1 then natDigitsF m ((m + 1) / 10) ++ [(m + 1) % 10]
      else [m + 1]) = _
    rw [if_pos (by omega)]
    have : natDigitsF m ((m + 1) / 10) = natDigits ((m + 1) / 10) :=
      natDigitsF_congr m ((m + 1) / 10) ((m + 1) / 10) (by omega) le_rfl
    rw [this]
  · rw [if_neg h]
    cases n with
    | zero => rfl
    | succ m =>
      show (if 10 ≤ m + 1 then _ else [m + 1]) = [m + 1]
      rw [if_neg (by omega)]


theorem valM_append (x y : List Nat) :
    valM (x ++ y) = valM x * 10 ^ y.length + valM y := by
  induction y using List.reverseRecOn with
  | nil => simp [valM]
  | append_singleton ys d ih =>
    show valM (x ++ (ys ++ [d])) = _
    rw [← List.append_assoc]
    simp only [valM, List.foldl_append, List.foldl_cons, List.foldl_nil,
      List.length_append, List.length_cons, List.length_nil] at *
    rw [ih, pow_succ]
    ring

theorem valM_append_singleton (x : List Nat) (d : Nat) :
    valM (x ++ [d]) = 10 * valM x + d := by
  rw [valM_append]
  simp [valM]
  ring

theorem valL_append_singleton (l : List Nat) (d : Nat) :
    valL (l ++ [d]) = valL l + d * 10 ^ l.length := by
  induction l with
  | nil => simp [valL]
  | cons x xs ih =>
    rw [List.cons_append]
    show x + 10 * valL (xs ++ [d]) = x + 10 * valL xs + d * 10 ^ (x :: xs).length
    rw [ih, List.length_cons, pow_succ]
    ring

theorem valM_reverse (l : List Nat) : valM l.reverse = valL l := by
  induction l with
  | nil => rfl
  | cons d ds ih =>
    rw [List.reverse_cons, valM_append_singleton, ih]
    show _ = d + 10 * valL ds
    ring

theorem valL_reverse (l : List Nat) : valL l.reverse = valM l := by
  have h := valM_reverse l.reverse
  rw [List.reverse_reverse] at h
  exact h.symm

theorem natDigits_spec (n : Nat) :
    valM (natDigits n) = n ∧ natDigits n ≠ [] ∧
      (∀ d ∈ natDigits n, d ≤ 9 ∨ (d = n ∧ n ≤ 9)) := by
  induction n using Nat.strong_induction_on with
  | _ n ih =>
    by_cases h : 10 ≤ n
    · have heq : natDigits n = natDigits (n / 10) ++ [n % 10] := by
        rw [natDigits_eq_unfold]
        simp [h]
      have hlt : n / 10 < n := Nat.div_lt_self (by omega) (by norm_num)
      obtain ⟨hv, hne, hd⟩ := ih (n / 10) hlt
      refine ⟨?_, ?_, ?_⟩
      · rw [heq, valM_append_singleton, hv]
        omega
      · rw [heq]
        simp
      · intro d hd'
        rw [heq] at hd'
        simp only [List.mem_append, List.mem_singleton] at hd'
        rcases hd' with h1 | h1
        · rcases hd d h1 with h2 | h2
          · exact Or.inl h2
          · exact Or.inl (by omega)
        · exact Or.inl (by omega)
    · have heq : natDigits n = [n] := by
        rw [natDigits_eq_unfold]
        simp [h]
      refine ⟨by rw [heq]; simp [valM], by rw [heq]; simp, ?_⟩
      intro d hd
      rw [heq] at hd
      simp at hd
      exact Or.inr ⟨hd, by omega⟩

theorem valM_natDigits (n : Nat) : valM (natDigits n) = n :=
  (natDigits_spec n).1

theorem natDigits_ne_nil (n : Nat) : natDigits n ≠ [] :=
  (natDigits_spec n).2.1

theorem natDigits_digits_le (n : Nat) : ∀ d ∈ natDigits n, d ≤ 9 := by
  intro d hd
  rcases (natDigits_spec n).2.2 d hd with h | h
  · exact h
  · omega

theorem valM_cons (d : Nat) (t : List Nat) :
    valM (d :: t) = d * 10 ^ t.length + valM t := by
  have h := valM_append [d] t
  simpa [valM] using h

theorem getDigitsF_eq_natDigitsF :
    ∀ (f : Nat) (x : Int), 0 ≤ x → getDigitsF f x = natDigitsF f x.toNat := by
  intro f
  induction f with
  | zero =>
    intro x hx
    show [(x.tmod 10).toNat] = [x.toNat % 10]
    rw [Int.tmod_eq_emod hx (by norm_num)]
    congr 1
    omega
  | succ g ih =>
    intro x hx
    show (if (10 : Int) ≤ x then getDigitsF g (x.tdiv 10) ++ [(x.tmod 10).toNat]
        else [(x.tmod 10).toNat]) =
      (if 10 ≤ x.toNat then natDigitsF g (x.toNat / 10) ++ [x.toNat % 10]
        else [x.toNat])
    by_cases h : (10 : Int) ≤ x
    · rw [if_pos h, if_pos (show 10 ≤ x.toNat by omega)]
      congr 1
      · rw [Int.tdiv_eq_ediv hx (by norm_num), ih (x / 10) (by omega)]
        congr 1
        omega
      · rw [Int.tmod_eq_emod hx (by norm_num)]
        congr 1
        omega
    · rw [if_neg h, if_neg (show ¬ 10 ≤ x.toNat by omega)]
      rw [Int.tmod_eq_emod hx (by norm_num)]
      congr 1
      omega

theorem getDigits_eq_natDigits (x : Int) (hx : 0 ≤ x) :
    getDigits x = natDigits x.toNat :=
  getDigitsF_eq_natDigitsF x.toNat x hx

theorem fromDigits_foldl (l : List Nat) (r m : Int) :
    l.foldl
      (fun (acc : Int × Int) (d : Nat) => (acc.1 + acc.2 * (d : Int), acc.2 * 10))
      (r, m) =
      (r + m * (valL l : Int), m * 10 ^ l.length) := by
  induction l generalizing r m with
  | nil => simp [valL]
  | cons d ds ih =>
    rw [List.foldl_cons, ih]
    simp only [Prod.mk.injEq, valL, List.length_cons]
    constructor
    · push_cast
      ring
    · ring

theorem fromDigits_eq_valM (s : List Nat) : fromDigits s = (valM s : Int) := by
  rw [fromDigits, fromDigits_foldl]
  simp [valL_reverse]

theorem valM_lt_pow (s : List Nat) (h : ∀ d ∈ s, d ≤ 9) :
    valM s < 10 ^ s.length := by
  induction s using List.reverseRecOn with
  | nil => simp [valM]
  | append_singleton t d ih =>
    rw [valM_append_singleton]
    have hd : d ≤ 9 := h d (by simp)
    have ht : valM t < 10 ^ t.length := ih (fun x hx => h x (by simp [hx]))
    rw [List.length_append, List.length_cons, List.length_nil, pow_succ]
    generalize 10 ^ t.length = P at *
    omega

theorem valM_head_ge (d : Nat) (t : List Nat) (hd : d ≠ 0) :
    10 ^ t.length ≤ valM (d :: t) := by
  rw [valM_cons]
  have h1 : 1 ≤ d := by omega
  calc 10 ^ t.length = 1 * 10 ^ t.length + 0 := by ring
  _ ≤ d * 10 ^ t.length + valM t := by
      exact Nat.add_le_add (Nat.mul_le_mul_right _ h1) (Nat.zero_le _)

theorem natDigits_of_canonical :
    ∀ s : List Nat, (∀ d ∈ s, d ≤ 9) → s ≠ [] → s.headD 0 ≠ 0 →
      natDigits (valM s) = s := by
  intro s
  induction s using List.reverseRecOn with
  | nil => intro _ hne _; exact absurd rfl hne
  | append_singleton t d ih =>
    intro hdig _ hh
    have hd9 : d ≤ 9 := hdig d (by simp)
    cases t with
    | nil =>
      show natDigits (valM [d]) = [d]
      have hv : valM [d] = d := by simp [valM]
      rw [hv, natDigits_eq_unfold, if_neg (show ¬ (10 : Nat) ≤ d by omega)]
    | cons x t' =>
      have hx : x ≠ 0 := by
        simpa using hh
      have hv1 : 1 ≤ valM (x :: t') :=
        le_trans (Nat.one_le_pow _ _ (by norm_num)) (valM_head_ge x t' hx)
      have hs : valM ((x :: t') ++ [d]) = 10 * valM (x :: t') + d :=
        valM_append_singleton _ d
      rw [hs, natDigits_eq_unfold,
        if_pos (show (10 : Nat) ≤ 10 * valM (x :: t') + d by omega)]
      have hdiv : (10 * valM (x :: t') + d) / 10 = valM (x :: t') := by omega
      have hmod : (10 * valM (x :: t') + d) % 10 = d := by omega
      rw [hdiv, hmod,
        ih (fun y hy => hdig y (by simp at hy ⊢; tauto)) (by simp)
          (by simp only [List.headD_cons]; exact hx)]

theorem valM_dropWhileZero (s : List Nat) :
    valM (s.dropWhile (fun d => d == 0)) = valM s := by
  induction s with
  | nil => rfl
  | cons x t ih =>
    rw [List.dropWhile_cons]
    by_cases hx : x = 0
    · rw [if_pos (by simp [hx]), ih, valM_cons, hx]
      simp
    · rw [if_neg (by simp [hx])]

theorem dropWhileZero_headD (s : List Nat)
    (h : s.dropWhile (fun d => d == 0) ≠ []) :
    (s.dropWhile (fun d => d == 0)).headD 0 ≠ 0 := by
  induction s with
  | nil => exact absurd rfl h
  | cons x t ih =>
    rw [List.dropWhile_cons] at h ⊢
    by_cases hx : x = 0
    · rw [if_pos (by simp [hx])] at h ⊢
      exact ih h
    · rw [if_neg (by simp [hx])]
      simpa using hx

theorem mem_dropWhileZero (s : List Nat) :
    ∀ y ∈ s.dropWhile (fun d => d == 0), y ∈ s := by
  intro y hy
  exact (List.dropWhile_sublist _).subset hy

/-- C8: round-trip contract of the digit conversions — for every
non-negative magnitude `x ≤ 10 ^ 76 − 1`, `fromDigits (getDigits x) = x`;
and for every digit sequence `s` of at most 76 digits,
`getDigits (fromDigits s)` equals `s` with leading zeros stripped. -/
theorem roundTrip_digits :
    (∀ x : Int, 0 ≤ x → x ≤ 10 ^ 76 - 1 → fromDigits (getDigits x) = x) ∧
    (∀ s : List Nat, (∀ d ∈ s, d ≤ 9) → s.length ≤ 76 →
      getDigits (fromDigits s) = stripLeadingZeros s) := by
  constructor
  · intro x hx _
    rw [getDigits_eq_natDigits x hx, fromDigits_eq_valM, valM_natDigits]
    omega
  · intro s hdig _
    rw [fromDigits_eq_valM,
      getDigits_eq_natDigits ((valM s : Nat) : Int) (by positivity)]
    have htn : ((valM s : Nat) : Int).toNat = valM s := by omega
    rw [htn]
    show natDigits (valM s) = stripLeadingZeros s
    rw [stripLeadingZeros]
    cases hcase : s.dropWhile (fun d => d == 0) with
    | nil =>
      have h0 : valM s = 0 := by
        have hv := valM_dropWhileZero s
        rw [hcase] at hv
        simpa [valM] using hv.symm
      rw [h0]
      rfl
    | cons r rs =>
      have hv : valM (r :: rs) = valM s := by
        have hv := valM_dropWhileZero s
        rwa [hcase] at hv
      have hhead : (r :: rs).headD 0 ≠ 0 := by
        have hh := dropWhileZero_headD s (by rw [hcase]; simp)
        rwa [hcase] at hh
      have hd9 : ∀ d ∈ (r :: rs), d ≤ 9 := by
        intro y hy
        exact hdig y (mem_dropWhileZero s y (hcase ▸ hy))
      rw [← hv, natDigits_of_canonical (r :: rs) hd9 (by simp) hhead]

/-- Witness for C8 at `x = 123` and `s = [0, 1, 2]`. -/
theorem roundTrip_digits_witness :
    fromDigits (getDigits 123) = 123 ∧
      getDigits (fromDigits [0, 1, 2]) = [1, 2] := by
  constructor
  · exact roundTrip_digits.1 123 (by norm_num) (by norm_num)
  · have h := roundTrip_digits.2 [0, 1, 2] (by decide) (by decide)
    rw [h]
    rfl

theorem getD_set_self : ∀ (l : List Nat) (i v : Nat), i < l.length →
    (l.set i v).getD i 0 = v := by
  intro l
  induction l with
  | nil => intro i v h; simp at h
  | cons x xs ih =>
    intro i v h
    cases i with
    | zero => rfl
    | succ i2 =>
      show (xs.set i2 v).getD i2 0 = v
      exact ih i2 v (by simpa using h)

theorem getD_set_ne : ∀ (l : List Nat) (i k v : Nat), i ≠ k →
    (l.set i v).getD k 0 = l.getD k 0 := by
  intro l
  induction l with
  | nil => intro i k v _; simp [List.set]
  | cons x xs ih =>
    intro i k v hik
    cases i with
    | zero =>
      cases k with
      | zero => exact absurd rfl hik
      | succ k2 => rfl
    | succ i2 =>
      cases k with
      | zero => rfl
      | succ k2 =>
        show (xs.set i2 v).getD k2 0 = xs.getD k2 0
        exact ih i2 k2 v (by omega)

theorem getD_replicate_zero (n k : Nat) :
    (List.replicate n (0 : Nat)).getD k 0 = 0 := by
  induction n generalizing k with
  | zero => simp
  | succ m ih =>
    cases k with
    | zero => rfl
    | succ k2 => exact ih k2

theorem valL_replicate_zero (n : Nat) : valL (List.replicate n 0) = 0 := by
  induction n with
  | zero => rfl
  | succ m ih =>
    show (0 : Nat) + 10 * valL (List.replicate m 0) = 0
    rw [ih]

theorem valL_set (l : List Nat) :
    ∀ (pos v : Nat), pos < l.length →
      valL (l.set pos v) + l.getD pos 0 * 10 ^ pos = valL l + v * 10 ^ pos := by
  induction l with
  | nil => intro pos v h; simp at h
  | cons x xs ih =>
    intro pos v h
    cases pos with
    | zero =>
      show (v + 10 * valL xs) + x * 10 ^ 0 = (x + 10 * valL xs) + v * 10 ^ 0
      ring
    | succ p =>
      have hp : p < xs.length := by simpa using h
      show (x + 10 * valL (xs.set p v)) + xs.getD p 0 * 10 ^ (p + 1) =
        (x + 10 * valL xs) + v * 10 ^ (p + 1)
      calc (x + 10 * valL (xs.set p v)) + xs.getD p 0 * 10 ^ (p + 1)
          = x + 10 * (valL (xs.set p v) + xs.getD p 0 * 10 ^ p) := by
            rw [pow_succ]; ring
        _ = x + 10 * (valL xs + v * 10 ^ p) := by rw [ih p v hp]
        _ = (x + 10 * valL xs) + v * 10 ^ (p + 1) := by rw [pow_succ]; ring

theorem mulInner_length (n1 : Nat) :
    ∀ (ds r : List Nat) (pos carry : Nat),
      (mulInner n1 ds r pos carry).length = r.length := by
  intro ds
  induction ds with
  | nil =>
    intro r pos carry
    show (if 0 < carry then r.set pos (r.getD pos 0 + carry) else r).length = _
    by_cases hc : 0 < carry
    · rw [if_pos hc, List.length_set]
    · rw [if_neg hc]
  | cons d ds ih =>
    intro r pos carry
    show (mulInner n1 ds _ (pos + 1) _).length = _
    rw [ih, List.length_set]

theorem mulOuter_length :
    ∀ (num1R num2R r : List Nat) (iN1 : Nat),
      (mulOuter num1R num2R r iN1).length = r.length := by
  intro num1R
  induction num1R with
  | nil => intro num2R r iN1; rfl
  | cons d ds ih =>
    intro num2R r iN1
    show (mulOuter ds num2R (mulInner d num2R r iN1 0) (iN1 + 1)).length = _
    rw [ih, mulInner_length]

theorem mulInner_valL (n1 : Nat) :
    ∀ (ds r : List Nat) (pos carry : Nat), pos + ds.length < r.length →
      valL (mulInner n1 ds r pos carry) =
        valL r + (n1 * valL ds + carry) * 10 ^ pos := by
  intro ds
  induction ds with
  | nil =>
    intro r pos carry h
    simp only [List.length_nil, Nat.add_zero] at h
    show valL (if 0 < carry then r.set pos (r.getD pos 0 + carry) else r) = _
    by_cases hc : 0 < carry
    · rw [if_pos hc]
      have hset := valL_set r pos (r.getD pos 0 + carry) h
      rw [Nat.add_mul] at hset
      show valL (r.set pos (r.getD pos 0 + carry)) =
        valL r + (n1 * valL [] + carry) * 10 ^ pos
      simp only [valL, Nat.mul_zero, Nat.zero_add]
      generalize r.getD pos 0 * 10 ^ pos = A at hset
      generalize hC : carry * 10 ^ pos = C
      rw [hC] at hset
      omega
    · rw [if_neg hc]
      have hc0 : carry = 0 := by omega
      simp [hc0, valL]
  | cons d ds ih =>
    intro r pos carry h
    show valL (mulInner n1 ds
        (r.set pos ((n1 * d + r.getD pos 0 + carry) % 10)) (pos + 1)
        ((n1 * d + r.getD pos 0 + carry) / 10)) = _
    have hlen : (pos + 1) + ds.length < (r.set pos ((n1 * d + r.getD pos 0 + carry) % 10)).length := by
      rw [List.length_set]
      simp only [List.length_cons] at h
      omega
    rw [ih _ _ _ hlen]
    have hset := valL_set r pos ((n1 * d + r.getD pos 0 + carry) % 10)
      (by simp only [List.length_cons] at h; omega)
    have hsum : 10 * ((n1 * d + r.getD pos 0 + carry) / 10) +
        (n1 * d + r.getD pos 0 + carry) % 10 = n1 * d + r.getD pos 0 + carry :=
      Nat.div_add_mod _ 10
    show valL (r.set pos ((n1 * d + r.getD pos 0 + carry) % 10)) +
        (n1 * valL ds + (n1 * d + r.getD pos 0 + carry) / 10) * 10 ^ (pos + 1) =
      valL r + (n1 * (d + 10 * valL ds) + carry) * 10 ^ pos
    zify at hset hsum ⊢
    linear_combination hset + (10 : Int) ^ pos * hsum

theorem mulOuter_valL :
    ∀ (num1R num2R r : List Nat) (iN1 : Nat),
      iN1 + num1R.length + num2R.length ≤ r.length →
      valL (mulOuter num1R num2R r iN1) =
        valL r + valL num1R * valL num2R * 10 ^ iN1 := by
  intro num1R
  induction num1R with
  | nil =>
    intro num2R r iN1 _
    show valL r = valL r + valL [] * valL num2R * 10 ^ iN1
    simp [valL]
  | cons d ds ih =>
    intro num2R r iN1 h
    simp only [List.length_cons] at h
    show valL (mulOuter ds num2R (mulInner d num2R r iN1 0) (iN1 + 1)) = _
    rw [ih num2R _ (iN1 + 1) (by rw [mulInner_length]; omega),
      mulInner_valL d num2R r iN1 0 (by omega)]
    show _ = valL r + (d + 10 * valL ds) * valL num2R * 10 ^ iN1
    rw [pow_succ]
    ring

theorem mulInner_bounds (n1 : Nat) (hn1 : n1 ≤ 9) :
    ∀ (ds r : List Nat) (pos carry : Nat),
      (∀ d ∈ ds, d ≤ 9) → (∀ k, r.getD k 0 ≤ 9) → carry ≤ 9 →
      (∀ k, pos + ds.length ≤ k → r.getD k 0 = 0) →
      (∀ k, (mulInner n1 ds r pos carry).getD k 0 ≤ 9) ∧
        (∀ k, pos + ds.length + 1 ≤ k →
          (mulInner n1 ds r pos carry).getD k 0 = 0) := by
  intro ds
  induction ds with
  | nil =>
    intro r pos carry _ hr hc hz
    have hm : mulInner n1 [] r pos carry =
        if 0 < carry then r.set pos (r.getD pos 0 + carry) else r := rfl
    rw [hm]
    by_cases h : 0 < carry
    · rw [if_pos h]
      have hp0 : r.getD pos 0 = 0 := hz pos (by simp)
      constructor
      · intro k
        by_cases hk : pos = k
        · subst hk
          by_cases hlen : pos < r.length
          · rw [getD_set_self r pos _ hlen, hp0]
            omega
          · rw [List.set_eq_of_length_le (by omega)]
            exact hr pos
        · rw [getD_set_ne r pos k _ hk]
          exact hr k
      · intro k hk
        simp only [List.length_nil, Nat.add_zero] at hk
        rw [getD_set_ne r pos k _ (by omega)]
        exact hz k (by simp only [List.length_nil, Nat.add_zero]; omega)
    · rw [if_neg h]
      refine ⟨hr, fun k hk => hz k ?_⟩
      simp only [List.length_nil, Nat.add_zero] at hk ⊢
      omega
  | cons d ds ih =>
    intro r pos carry hds hr hc hz
    have hd9 : d ≤ 9 := hds d (by simp)
    have hsum : n1 * d + r.getD pos 0 + carry ≤ 99 := by
      have := hr pos
      nlinarith
    show (∀ k, (mulInner n1 ds
        (r.set pos ((n1 * d + r.getD pos 0 + carry) % 10)) (pos + 1)
        ((n1 * d + r.getD pos 0 + carry) / 10)).getD k 0 ≤ 9) ∧ _
    have hres := ih (r.set pos ((n1 * d + r.getD pos 0 + carry) % 10)) (pos + 1)
      ((n1 * d + r.getD pos 0 + carry) / 10)
      (fun y hy => hds y (by simp [hy]))
      (by
        intro k
        by_cases hk : pos = k
        · subst hk
          by_cases hlen : pos < r.length
          · rw [getD_set_self r pos _ hlen]
            omega
          · rw [List.set_eq_of_length_le (by omega)]
            exact hr pos
        · rw [getD_set_ne r pos k _ hk]
          exact hr k)
      (by omega)
      (by
        intro k hk
        simp only [List.length_cons] at hz
        rw [getD_set_ne r pos k _ (by omega)]
        exact hz k (by omega))
    constructor
    · exact hres.1
    · intro k hk
      simp only [List.length_cons] at hk
      exact hres.2 k (by omega)

theorem mulOuter_bounds :
    ∀ (num1R num2R r : List Nat) (iN1 : Nat),
      (∀ d ∈ num1R, d ≤ 9) → (∀ d ∈ num2R, d ≤ 9) →
      (∀ k, r.getD k 0 ≤ 9) →
      (∀ k, iN1 + num2R.length ≤ k → r.getD k 0 = 0) →
      ∀ k, (mulOuter num1R num2R r iN1).getD k 0 ≤ 9 := by
  intro num1R
  induction num1R with
  | nil =>
    intro num2R r iN1 _ _ hr _ k
    exact hr k
  | cons d ds ih =>
    intro num2R r iN1 h1 h2 hr hz k
    have hd9 : d ≤ 9 := h1 d (by simp)
    have hb := mulInner_bounds d hd9 num2R r iN1 0 h2 hr (by omega) hz
    exact ih num2R _ (iN1 + 1) (fun y hy => h1 y (by simp [hy])) h2 hb.1
      (fun k2 hk2 => hb.2 k2 (by omega)) k

theorem allZero_valL (l : List Nat) (h : l.all (fun d => d == 0) = true) :
    valL l = 0 := by
  induction l with
  | nil => rfl
  | cons x t ih =>
    simp only [List.all_cons, Bool.and_eq_true, beq_iff_eq] at h
    show x + 10 * valL t = 0
    rw [h.1, ih h.2]

theorem valL_allZero (l : List Nat) (h : valL l = 0) :
    l.all (fun d => d == 0) = true := by
  induction l with
  | nil => rfl
  | cons x t ih =>
    have h' : x + 10 * valL t = 0 := h
    have hx : x = 0 := by omega
    have ht : valL t = 0 := by omega
    simp [List.all_cons, hx, ih ht]

theorem mem_getD (l : List Nat) (y : Nat) (hy : y ∈ l) :
    ∃ k, k < l.length ∧ l.getD k 0 = y := by
  obtain ⟨i, hi, hEq⟩ := List.mem_iff_getElem.mp hy
  exact ⟨i, hi, by rw [List.getD_eq_getElem l 0 hi, hEq]⟩

theorem multiply_valM (num1 num2 : List Nat) :
    valM (multiply num1 num2) = valM num1 * valM num2 := by
  rw [multiply]
  by_cases hnil : num1.length = 0 ∨ num2.length = 0
  · rw [if_pos hnil]
    rcases hnil with h | h
    · rw [List.length_eq_zero.mp h]
      simp [valM]
    · rw [List.length_eq_zero.mp h]
      simp [valM]
  · rw [if_neg hnil]
    have hlen : 0 + num1.reverse.length + num2.reverse.length ≤
        (List.replicate (num1.length + num2.length) (0 : Nat)).length := by
      simp
    have hv := mulOuter_valL num1.reverse num2.reverse _ 0 hlen
    rw [valL_replicate_zero, valL_reverse, valL_reverse, pow_zero, mul_one,
      Nat.zero_add] at hv
    by_cases hz : (mulOuter num1.reverse num2.reverse
        (List.replicate (num1.length + num2.length) 0) 0).all
        (fun d => d == 0) = true
    · rw [if_pos hz]
      have h0 := allZero_valL _ hz
      rw [h0] at hv
      show valM [0] = valM num1 * valM num2
      rw [← hv]
      simp [valM]
    · rw [if_neg hz]
      rw [valM_reverse, hv]

theorem multiply_length (num1 num2 : List Nat) (h1 : num1 ≠ []) (h2 : num2 ≠ [])
    (hp : valM num1 * valM num2 ≠ 0) :
    (multiply num1 num2).length = num1.length + num2.length := by
  rw [multiply]
  have hnil : ¬ (num1.length = 0 ∨ num2.length = 0) := by
    simp [List.length_eq_zero]
    exact ⟨h1, h2⟩
  rw [if_neg hnil]
  have hlen : 0 + num1.reverse.length + num2.reverse.length ≤
      (List.replicate (num1.length + num2.length) (0 : Nat)).length := by
    simp
  have hv := mulOuter_valL num1.reverse num2.reverse _ 0 hlen
  rw [valL_replicate_zero, valL_reverse, valL_reverse, pow_zero, mul_one,
    Nat.zero_add] at hv
  by_cases hz : (mulOuter num1.reverse num2.reverse
      (List.replicate (num1.length + num2.length) 0) 0).all
      (fun d => d == 0) = true
  · exact absurd (hv ▸ allZero_valL _ hz) hp
  · rw [if_neg hz, List.length_reverse, mulOuter_length, List.length_replicate]

theorem multiply_digits_le (num1 num2 : List Nat)
    (h1 : ∀ d ∈ num1, d ≤ 9) (h2 : ∀ d ∈ num2, d ≤ 9) :
    ∀ d ∈ multiply num1 num2, d ≤ 9 := by
  intro y hy
  rw [multiply] at hy
  by_cases hnil : num1.length = 0 ∨ num2.length = 0
  · rw [if_pos hnil] at hy
    simp at hy
    omega
  · rw [if_neg hnil] at hy
    by_cases hz : (mulOuter num1.reverse num2.reverse
        (List.replicate (num1.length + num2.length) 0) 0).all
        (fun d => d == 0) = true
    · rw [if_pos hz] at hy
      simp at hy
      omega
    · rw [if_neg hz] at hy
      rw [List.mem_reverse] at hy
      obtain ⟨k, hk, hEq⟩ := mem_getD _ y hy
      rw [← hEq]
      exact mulOuter_bounds num1.reverse num2.reverse _ 0
        (fun d hd => h1 d (List.mem_reverse.mp hd))
        (fun d hd => h2 d (List.mem_reverse.mp hd))
        (fun k2 => by rw [getD_replicate_zero]; omega)
        (fun k2 _ => getD_replicate_zero _ k2) k

theorem popBackN_err : ∀ (k : Nat) (l : List Nat), l.length < k →
    popBackN k l = .error .popEmpty := by
  intro k
  induction k with
  | zero => intro l h; omega
  | succ k2 ih =>
    intro l h
    show (if l.isEmpty then Except.error ExecErr.popEmpty
      else popBackN k2 l.dropLast) = _
    by_cases he : l.isEmpty
    · rw [if_pos he]
    · rw [if_neg he]
      have hne : l ≠ [] := by
        cases l
        · simp at he
        · simp
      have hpos : 0 < l.length := List.length_pos.mpr hne
      exact ih _ (by rw [List.length_dropLast]; omega)

theorem popBackN_take : ∀ (k : Nat) (l : List Nat), k ≤ l.length →
    popBackN k l = .ok (l.take (l.length - k)) := by
  intro k
  induction k with
  | zero =>
    intro l _
    show Except.ok l = _
    rw [Nat.sub_zero, List.take_length]
  | succ k2 ih =>
    intro l h
    show (if l.isEmpty then Except.error ExecErr.popEmpty
      else popBackN k2 l.dropLast) = _
    have hne : l ≠ [] := by
      intro he
      subst he
      simp at h
    rw [if_neg (by simpa using hne), ih l.dropLast (by rw [List.length_dropLast]; omega)]
    congr 1
    rw [List.length_dropLast, List.dropLast_eq_take, List.take_take]
    congr 1
    omega

theorem valM_take (l : List Nat) (k : Nat) (hk : k ≤ l.length)
    (hd : ∀ d ∈ l, d ≤ 9) :
    valM (l.take (l.length - k)) = valM l / 10 ^ k := by
  have hsplit := List.take_append_drop (l.length - k) l
  have hlen2 : (l.drop (l.length - k)).length = k := by
    rw [List.length_drop]
    omega
  have hv := valM_append (l.take (l.length - k)) (l.drop (l.length - k))
  rw [hlen2, hsplit] at hv
  have hb : valM (l.drop (l.length - k)) < 10 ^ k := by
    have hlt := valM_lt_pow (l.drop (l.length - k))
      (fun d hd2 => hd d (List.drop_subset _ l hd2))
    rwa [hlen2] at hlt
  rw [hv, mul_comm, Nat.mul_add_div (by positivity), Nat.div_eq_of_lt hb,
    Nat.add_zero]

theorem valM_replicate_zero (n : Nat) : valM (List.replicate n 0) = 0 := by
  rw [← List.reverse_replicate, valM_reverse, valL_replicate_zero]

theorem pow_mul_div_le (x rs sab : Nat) (h : sab ≤ rs) :
    x * 10 ^ rs / 10 ^ sab = x * 10 ^ (rs - sab) := by
  have hrs : (10 : Nat) ^ rs = 10 ^ sab * 10 ^ (rs - sab) := by
    rw [← pow_add]
    congr 1
    omega
  rw [hrs, mul_left_comm,
    Nat.mul_div_cancel_left _ (by positivity : (0 : Nat) < 10 ^ sab)]

theorem pow_mul_div_ge (x rs sab : Nat) (h : rs ≤ sab) :
    x * 10 ^ rs / 10 ^ sab = x / 10 ^ (sab - rs) := by
  have hsab : (10 : Nat) ^ sab = 10 ^ rs * 10 ^ (sab - rs) := by
    rw [← pow_add]
    congr 1
    omega
  rw [hsab, mul_comm x,
    Nat.mul_div_mul_left _ _ (by positivity : (0 : Nat) < 10 ^ rs)]

theorem signMul_natAbs (a : Int) :
    a * (if a < 0 then -1 else 1) = (a.natAbs : Int) := by
  by_cases h : a < 0
  · rw [if_pos h, mul_neg_one]
    omega
  · rw [if_neg h, mul_one]
    omega

theorem headD_append_left (l l' : List Nat) (h : l ≠ []) :
    (l ++ l').headD 0 = l.headD 0 := by
  cases l with
  | nil => exact absurd rfl h
  | cons x t => rfl

theorem natDigits_headD (n : Nat) (hn : n ≠ 0) :
    (natDigits n).headD 0 ≠ 0 := by
  induction n using Nat.strong_induction_on with
  | _ n ih =>
    rw [natDigits_eq_unfold]
    by_cases h : 10 ≤ n
    · rw [if_pos h, headD_append_left _ _ (natDigits_ne_nil _)]
      exact ih (n / 10) (Nat.div_lt_self (by omega) (by norm_num)) (by omega)
    · rw [if_neg h]
      simpa using hn

theorem natDigits_length_le (v L : Nat) (hv : v ≠ 0) (hlt : v < 10 ^ L) :
    (natDigits v).length ≤ L := by
  obtain ⟨x, t, hxt⟩ : ∃ x t, natDigits v = x :: t := by
    cases hne : natDigits v with
    | nil => exact absurd hne (natDigits_ne_nil v)
    | cons x t => exact ⟨x, t, rfl⟩
  have hx : x ≠ 0 := by
    have hh := natDigits_headD v hv
    rw [hxt] at hh
    simpa using hh
  have hge : 10 ^ t.length ≤ v := by
    have h1 := valM_head_ge x t hx
    rw [← hxt, valM_natDigits] at h1
    exact h1
  have : 10 ^ t.length < 10 ^ L := lt_of_le_of_lt hge hlt
  have hlen : t.length < L :=
    (pow_lt_pow_iff_right₀ (by norm_num : (1 : Nat) < 10)).mp this
  rw [hxt, List.length_cons]
  omega

theorem padded_digits_eq : ∀ (s : List Nat), (∀ d ∈ s, d ≤ 9) → valM s ≠ 0 →
    s = List.replicate (s.length - (natDigits (valM s)).length) 0 ++
      natDigits (valM s) := by
  intro s
  induction s with
  | nil => intro _ hv; simp [valM] at hv
  | cons x t ih =>
    intro hd hv
    by_cases hx : x = 0
    · subst hx
      have hvt : valM (0 :: t) = valM t := by
        rw [valM_cons]
        simp
      rw [hvt] at hv ⊢
      have ht := ih (fun y hy => hd y (by simp [hy])) hv
      have hlent : (natDigits (valM t)).length ≤ t.length :=
        natDigits_length_le _ _ hv
          (valM_lt_pow t (fun y hy => hd y (by simp [hy])))
      have hrep : (0 :: t).length - (natDigits (valM t)).length =
          (t.length - (natDigits (valM t)).length) + 1 := by
        rw [List.length_cons]
        omega
      rw [hrep, List.replicate_succ, List.cons_append]
      exact congrArg (0 :: ·) ht
    · have hcanon := natDigits_of_canonical (x :: t)
        hd (by simp) (by simpa using hx)
      rw [hcanon]
      simp

theorem getDigits_abs (a : Int) :
    getDigits (a * (if a < 0 then -1 else 1)) = natDigits a.natAbs := by
  rw [signMul_natAbs a, getDigits_eq_natDigits _ (Int.natCast_nonneg _)]
  congr 1

theorem multiplyExecute_char (a b : Int) (sa sb rs : Nat) (r : Int)
    (h : multiplyExecute a b sa sb rs = .ok r) :
    ∃ m : List Nat, m.length ≤ 76 ∧ (∀ d ∈ m, d ≤ 9) ∧
      valM m = a.natAbs * b.natAbs * 10 ^ rs / 10 ^ (sa + sb) ∧
      r = (if a < 0 then -1 else 1) * (if b < 0 then -1 else 1) *
        (valM m : Int) := by
  simp only [multiplyExecute] at h
  rw [getDigits_abs a, getDigits_abs b] at h
  have hmv : valM (multiply (natDigits a.natAbs) (natDigits b.natAbs)) =
      a.natAbs * b.natAbs := by
    rw [multiply_valM, valM_natDigits, valM_natDigits]
  have hmd : ∀ d ∈ multiply (natDigits a.natAbs) (natDigits b.natAbs), d ≤ 9 :=
    multiply_digits_le _ _ (natDigits_digits_le _) (natDigits_digits_le _)
  split at h
  · exact absurd h (by simp)
  next m heq =>
    by_cases hlen : 76 < m.length
    · rw [if_pos hlen] at h
      exact absurd h (by simp)
    · rw [if_neg hlen] at h
      have hr : (if a < 0 then (-1 : Int) else 1) * (if b < 0 then -1 else 1) *
          fromDigits m = r := Except.ok.inj h
      have hm : (∀ d ∈ m, d ≤ 9) ∧
          valM m = a.natAbs * b.natAbs * 10 ^ rs / 10 ^ (sa + sb) := by
        by_cases hcase : rs < sa + sb
        · rw [if_pos hcase, if_neg (by omega)] at heq
          by_cases hk : sa + sb - rs ≤
              (multiply (natDigits a.natAbs) (natDigits b.natAbs)).length
          · rw [popBackN_take _ _ hk] at heq
            have hmEq := Except.ok.inj heq
            subst hmEq
            constructor
            · intro d hd
              exact hmd d (List.take_subset _ _ hd)
            · rw [valM_take _ _ hk hmd, hmv, pow_mul_div_ge _ _ _ (by omega)]
          · rw [popBackN_err _ _ (by omega)] at heq
            exact absurd heq (by simp)
        · rw [if_neg hcase] at heq
          by_cases hpad : sa + sb < rs
          · rw [if_pos hpad] at heq
            have hmEq := Except.ok.inj heq
            subst hmEq
            constructor
            · intro d hd
              rcases List.mem_append.mp hd with h1 | h1
              · exact hmd d h1
              · have h0 := List.eq_of_mem_replicate h1
                omega
            · rw [valM_append, valM_replicate_zero, List.length_replicate, hmv,
                pow_mul_div_le _ _ _ (by omega), Nat.add_zero]
          · rw [if_neg hpad] at heq
            have hmEq := Except.ok.inj heq
            subst hmEq
            refine ⟨hmd, ?_⟩
            rw [hmv, pow_mul_div_le _ _ _ (by omega),
              show rs - (sa + sb) = 0 by omega, pow_zero, Nat.mul_one]
      exact ⟨m, by omega, hm.1, hm.2, by rw [← hr, fromDigits_eq_valM, hm.2]⟩

/-- C1: for decimal operands `a` (scale `sa`), `b` (scale `sb`) and any
resolved result scale `rs ≤ 76`, a successful `multiplyDecimal` call
returns exactly the mathematical product `(a/10^sa)·(b/10^sb)` scaled to
`rs`, truncated toward zero: the magnitude is
`⌊|a|·|b|·10^rs / 10^(sa+sb)⌋` and the sign is `sign(a)·sign(b)`. -/
theorem multiplyDecimal_exact (a b : Int) (sa sb rs : Nat)
    (_hsa : sa ≤ 76) (_hsb : sb ≤ 76) (_hrs : rs ≤ 76) (r : Int)
    (h : multiplyExecute a b sa sb rs = .ok r) :
    r = (if (a < 0) = (b < 0) then 1 else -1) *
      ((a.natAbs * b.natAbs * 10 ^ rs / 10 ^ (sa + sb) : Nat) : Int) := by
  obtain ⟨m, _, _, hval, hr⟩ := multiplyExecute_char a b sa sb rs r h
  rw [hr, hval]
  by_cases ha : a < 0 <;> by_cases hb : b < 0 <;> simp [ha, hb]

/-- Witness for C1 at `a = 123` (1.23), `b = 456` (4.56), result scale 4:
the call succeeds with 56088 (5.6088). -/
theorem multiplyDecimal_exact_witness :
    multiplyExecute 123 456 2 2 4 = .ok 56088 ∧
      (56088 : Int) = (if ((123 : Int) < 0) = ((456 : Int) < 0) then 1 else -1) *
        (((123 : Int).natAbs * (456 : Int).natAbs * 10 ^ 4 / 10 ^ (2 + 2) : Nat) : Int) := by
  have hok : multiplyExecute 123 456 2 2 4 = .ok 56088 := by decide
  exact ⟨hok,
    multiplyDecimal_exact 123 456 2 2 4 (by omega) (by omega) (by omega) 56088 hok⟩

/-- C5 counterexample: `multiply [2] [3]` returns `[0, 6]`, keeping the
leading zero of the `len1 + len2` work buffer, while the canonical digit
sequence of the product 6 is `[6]` — the claim that the result has all
leading zeros stripped (length equal to the true digit count) is false. -/
theorem multiply_keeps_leading_zero :
    multiply [2] [3] = [0, 6] ∧ natDigits (valM [2] * valM [3]) = [6] :=
  ⟨by decide, by decide⟩

/-- C5 (amended): `multiply` computes the exact product value, but the
result is NOT leading-zero-stripped — for nonzero products of non-empty
operands it is the canonical digit sequence of the product left-padded
with zeros to exactly `len1 + len2` digits; an empty operand or a zero
product yields `[0]`. -/
theorem multiply_correct_padded (num1 num2 : List Nat)
    (h1 : ∀ d ∈ num1, d ≤ 9) (h2 : ∀ d ∈ num2, d ≤ 9) :
    valM (multiply num1 num2) = valM num1 * valM num2 ∧
      (num1 ≠ [] → num2 ≠ [] → valM num1 * valM num2 ≠ 0 →
        multiply num1 num2 =
          List.replicate (num1.length + num2.length -
            (natDigits (valM num1 * valM num2)).length) 0 ++
            natDigits (valM num1 * valM num2)) ∧
      ((num1 = [] ∨ num2 = [] ∨ valM num1 * valM num2 = 0) →
        multiply num1 num2 = [0]) := by
  refine ⟨multiply_valM num1 num2, ?_, ?_⟩
  · intro hn1 hn2 hp
    have hpad := padded_digits_eq (multiply num1 num2)
      (multiply_digits_le num1 num2 h1 h2)
      (by rw [multiply_valM]; exact hp)
    rw [multiply_valM, multiply_length num1 num2 hn1 hn2 hp] at hpad
    exact hpad
  · intro hz
    rcases hz with h | h | h
    · rw [multiply, if_pos (Or.inl (by rw [h]; rfl))]
    · rw [multiply, if_pos (Or.inr (by rw [h]; rfl))]
    · by_cases hnil : num1.length = 0 ∨ num2.length = 0
      · rw [multiply, if_pos hnil]
      · rw [multiply, if_neg hnil]
        have hlen : 0 + num1.reverse.length + num2.reverse.length ≤
            (List.replicate (num1.length + num2.length) (0 : Nat)).length := by
          simp
        have hv := mulOuter_valL num1.reverse num2.reverse _ 0 hlen
        rw [valL_replicate_zero, valL_reverse, valL_reverse, pow_zero, mul_one,
          Nat.zero_add, h] at hv
        rw [if_pos (valL_allZero _ hv)]

/-- Witness for C5 at `num1 = [1, 2]`, `num2 = [3]`: the product 36 comes
back as `[0, 3, 6]` (value correct, one leading zero of padding). -/
theorem multiply_correct_padded_witness :
    valM (multiply [1, 2] [3]) = valM [1, 2] * valM [3] ∧
      multiply [1, 2] [3] =
        List.replicate ([1, 2].length + [3].length -
          (natDigits (valM [1, 2] * valM [3])).length) 0 ++
          natDigits (valM [1, 2] * valM [3]) := by
  have h := multiply_correct_padded [1, 2] [3] (by decide) (by decide)
  exact ⟨h.1, h.2.1 (by decide) (by decide) (by decide)⟩

/-- C9: at `a = 0` (scale 2), `b = 1` (scale 2), result scale 0, the
product sequence `multiply([0], [1])` is `[0]` with a single digit while
the transform performs `scaleA + scaleB − resultScale = 4` trailing
removals — the second `pop_back` acts on an empty vector (C++ undefined
behaviour), surfaced by the model as `popEmpty`. -/
theorem multiply_popEmpty_underflow :
    multiplyExecute 0 1 2 2 0 = .error .popEmpty ∧
      (multiply (getDigits 0) (getDigits 1)).length = 1 :=
  ⟨by decide, by decide⟩

theorem readDigit_in (g : Nat → Nat) (number : List Nat) (i : Nat)
    (h : i < number.length) :
    readDigit g number i = (number.get ⟨i, h⟩, false) := dif_pos h

theorem readDigit_out (g : Nat → Nat) (number : List Nat) (i : Nat)
    (h : ¬ i < number.length) : readDigit g number i = (g i, true) := dif_neg h

theorem getDigitsF_ne_nil (f : Nat) (x : Int) : getDigitsF f x ≠ [] := by
  cases f with
  | zero => simp [getDigitsF]
  | succ f2 =>
    show (if (10 : Int) ≤ x then getDigitsF f2 (x.tdiv 10) ++ [(x.tmod 10).toNat]
      else [(x.tmod 10).toNat]) ≠ []
    by_cases h : (10 : Int) ≤ x
    · rw [if_pos h]
      simp
    · rw [if_neg h]
      simp

theorem seedLoop_ge (g : Nat → Nat) (number : List Nat) (d temp : Int)
    (fuel : Nat) (idx : Nat) (oob : Bool) (ht : ¬ temp < d) :
    seedLoop g number d fuel temp idx oob = .ok (temp, idx, oob) := by
  cases fuel with
  | zero =>
    show (if temp < d then Except.error ExecErr.noTerm else _) = _
    rw [if_neg ht]
  | succ f =>
    show (if temp < d then _ else Except.ok (temp, idx, oob)) = _
    rw [if_neg ht]

theorem divide_zero_divisor (g : Nat → Nat) (fuel : Nat) (number : List Nat)
    (hne : number ≠ []) :
    divide g fuel number 0 = .error .divByZero := by
  have hlen : 0 < number.length := List.length_pos.mpr hne
  simp only [divide]
  rw [readDigit_in g number 0 hlen]
  rw [seedLoop_ge g number 0 _ fuel 0 false
    (Int.not_lt.mpr (Int.natCast_nonneg _))]
  dsimp only
  obtain ⟨k, hk⟩ : ∃ k, number.length - 0 = k + 1 := ⟨number.length - 1, by omega⟩
  rw [hk]
  have hq : quotLoop g number 0 (k + 1) (((number.get ⟨0, hlen⟩ : Nat) : Int))
      0 false = .error .divByZero := by
    show (if (0 : Int) = 0 then Except.error ExecErr.divByZero else _) = _
    rw [if_pos rfl]
  rw [hq]

/-- C6: invoking the divide path with divisor magnitude 0 never silently
returns a quotient: the very first quotient-loop body divides by zero
(the source has no explicit zero check; integer division by zero is an
erroneous C++ execution, never a value), for every operand, every scale
combination, every oracle and every fuel. -/
theorem divideDecimal_zero_divisor_error (g : Nat → Nat) (fuel : Nat)
    (a : Int) (sa sb rs : Nat) :
    divideExecute g fuel a 0 sa sb rs = .error .divByZero := by
  simp only [divideExecute]
  have hne : (getDigits (a * (if a < 0 then -1 else 1)) ++
      List.replicate (sb - sa) 0) ++ List.replicate rs 0 ≠ [] := by
    intro h
    rw [List.append_eq_nil, List.append_eq_nil] at h
    exact getDigitsF_ne_nil _ _ h.1.1
  rw [divide_zero_divisor g fuel _ hne]

/-- C4: even the smallest healthy division reads past the end of the
numerator.  `divide([4], 2)` computes the right quotient `[2]`, but the
final quotient-loop iteration executes `number[++idx]` with `idx`
becoming 1 on the 1-element vector — an out-of-bounds read, recorded by
the model's flag being `true` (oracle 0, fuel 5 shown; the flag does not
depend on them). -/
theorem divide_reads_out_of_bounds :
    divide (fun _ => 0) 5 [4] 2 = .ok ([2], true) := by decide

theorem wrap32_lt (x : Int) : wrap32 x < 2 ^ 31 := by
  have h := Int.emod_lt_of_pos (x + 2 ^ 31) (by norm_num : (0 : Int) < 2 ^ 32)
  unfold wrap32
  omega

theorem wrap32_eq_self (x : Int) (h1 : -2 ^ 31 ≤ x) (h2 : x < 2 ^ 31) :
    wrap32 x = x := by
  unfold wrap32
  rw [Int.emod_eq_of_lt (by omega) (by omega)]
  omega

theorem seedLoop_noTerm (g : Nat → Nat) (number : List Nat) (d : Int)
    (hd : 2 ^ 31 ≤ d) :
    ∀ (fuel : Nat) (temp : Int) (idx : Nat) (oob : Bool), temp < d →
      seedLoop g number d fuel temp idx oob = .error .noTerm := by
  intro fuel
  induction fuel with
  | zero =>
    intro temp idx oob h
    show (if temp < d then Except.error ExecErr.noTerm else _) = _
    rw [if_pos h]
  | succ f ih =>
    intro temp idx oob h
    show (if temp < d then _ else _) = _
    rw [if_pos h]
    exact ih _ _ _ (lt_of_lt_of_le (wrap32_lt _) hd)

/-- C7 counterexample: numerator 6000000000 (digits `[6,0,…,0]`) and
divisor 3000000000.  The divisor and every intermediate remainder of the
ideal long division fit far inside the native 256-bit range (all are
below 2^33), and the true quotient is 2 — yet the kernel keeps its
remainder `temp` in a 32-bit `int`, whose value is always below
2^31 < 3000000000, so the seeding condition `temp < divisor` can never
become false: for every oracle and every fuel the model reports the
non-terminating loop instead of the quotient `[2]`. -/
theorem divide_256bit_range_insufficient :
    (3000000000 : Int) < 2 ^ 255 ∧
      valM [6, 0, 0, 0, 0, 0, 0, 0, 0, 0] / 3000000000 = 2 ∧
      ∀ (g : Nat → Nat) (fuel : Nat),
        divide g fuel [6, 0, 0, 0, 0, 0, 0, 0, 0, 0] 3000000000 =
          .error .noTerm := by
  refine ⟨by norm_num, by decide, ?_⟩
  intro g fuel
  simp only [divide]
  rw [readDigit_in g _ 0 (by decide)]
  rw [seedLoop_noTerm g _ 3000000000 (by norm_num) fuel _ 0 false (by decide)]

theorem valM_take_one (number : List Nat) (h : 0 < number.length) :
    valM (number.take 1) = number.get ⟨0, h⟩ := by
  cases number with
  | nil => simp at h
  | cons x t =>
    show valM [x] = x
    simp [valM]

theorem valM_take_succ (number : List Nat) (i : Nat)
    (h : i + 1 < number.length) :
    valM (number.take (i + 2)) =
      10 * valM (number.take (i + 1)) + number.get ⟨i + 1, h⟩ := by
  rw [List.take_succ, List.getElem?_eq_getElem h]
  show valM (number.take (i + 1) ++ [number[i + 1]]) = _
  rw [valM_append_singleton]
  rfl

theorem int_div_byte (t dn : Nat) (hdn : 0 < dn) (ht : t < 10 * dn) :
    (((t : Nat) : Int).tdiv ((dn : Nat) : Int) % 256).toNat = t / dn := by
  have h1 : ((t : Nat) : Int).tdiv ((dn : Nat) : Int) = ((t / dn : Nat) : Int) :=
    (Int.ofNat_tdiv t dn).symm
  have h9 : t / dn < 10 := (Nat.div_lt_iff_lt_mul hdn).mpr (by omega)
  rw [h1, Int.emod_eq_of_lt (Int.natCast_nonneg _)
    (by exact_mod_cast lt_of_lt_of_le h9 (by norm_num))]
  generalize t / dn = q
  omega

theorem seedLoop_correct (g : Nat → Nat) (number : List Nat) (dn : Nat)
    (hd0 : 0 < dn) (hw : 10 * dn ≤ 2 ^ 31) (hdig : ∀ x ∈ number, x ≤ 9)
    (hge : dn ≤ valM number) :
    ∀ (fuel idx : Nat) (oob : Bool),
      idx < number.length →
      number.length - 1 - idx ≤ fuel →
      (∀ j, j < idx → valM (number.take (j + 1)) < dn) →
      ∃ k, idx ≤ k ∧ k < number.length ∧
        seedLoop g number ((dn : Nat) : Int) fuel
          ((valM (number.take (idx + 1)) : Nat) : Int) idx oob =
          .ok (((valM (number.take (k + 1)) : Nat) : Int), k, oob) ∧
        dn ≤ valM (number.take (k + 1)) ∧
        (∀ j, j < k → valM (number.take (j + 1)) < dn) := by
  intro fuel
  induction fuel with
  | zero =>
    intro idx oob hidx hfuel hprev
    by_cases hcur : dn ≤ valM (number.take (idx + 1))
    · refine ⟨idx, le_rfl, hidx, ?_, hcur, hprev⟩
      show (if _ < _ then Except.error ExecErr.noTerm else _) = _
      rw [if_neg (by omega)]
    · exfalso
      have hidx2 : idx = number.length - 1 := by omega
      have htk : number.take (idx + 1) = number := by
        rw [hidx2, show number.length - 1 + 1 = number.length by omega,
          List.take_length]
      rw [htk] at hcur
      omega
  | succ f ih =>
    intro idx oob hidx hfuel hprev
    by_cases hcur : dn ≤ valM (number.take (idx + 1))
    · refine ⟨idx, le_rfl, hidx, ?_, hcur, hprev⟩
      show (if _ < _ then _ else Except.ok _) = _
      rw [if_neg (by omega)]
    · have hidx2 : idx + 1 < number.length := by
        by_contra hc
        have h1 : number.take (idx + 1) = number := by
          rw [show idx + 1 = number.length by omega, List.take_length]
        rw [h1] at hcur
        omega
      have hdigit : (number.get ⟨idx + 1, hidx2⟩ : Nat) ≤ 9 :=
        hdig _ (List.get_mem _ _ _)
      have hstep := valM_take_succ number idx hidx2
      have hbound : valM (number.take (idx + 1)) < dn := by omega
      have harg : wrap32 (((valM (number.take (idx + 1)) : Nat) : Int) * 10 +
          ((number.get ⟨idx + 1, hidx2⟩ : Nat) : Int)) =
          ((valM (number.take (idx + 1 + 1)) : Nat) : Int) := by
        rw [wrap32_eq_self _ (by omega) (by omega), hstep]
        push_cast
        ring
      obtain ⟨k, hk1, hk2, hk3, hk4, hk5⟩ := ih (idx + 1) oob hidx2 (by omega)
        (by
          intro j hj
          rcases Nat.lt_succ_iff_lt_or_eq.mp hj with hj2 | hj2
          · exact hprev j hj2
          · subst hj2
            exact hbound)
      refine ⟨k, by omega, hk2, ?_, hk4, hk5⟩
      show (if _ < _ then _ else _) = _
      rw [if_pos (by omega : ((valM (number.take (idx + 1)) : Nat) : Int) <
        ((dn : Nat) : Int))]
      rw [readDigit_in g number (idx + 1) hidx2]
      dsimp only
      rw [Bool.or_false, harg]
      exact hk3

theorem int_mod_cast (t dn : Nat) :
    ((t : Nat) : Int).tmod ((dn : Nat) : Int) = ((t % dn : Nat) : Int) :=
  (Int.ofNat_tmod t dn).symm

theorem quotLoop_correct (g : Nat → Nat) (number : List Nat) (dn : Nat)
    (hd0 : 0 < dn) (hw : 10 * dn ≤ 2 ^ 31) (hdig : ∀ x ∈ number, x ≤ 9) :
    ∀ (k idx t : Nat) (oob : Bool),
      k = number.length - idx → idx < number.length → t < 10 * dn →
      ∃ ans rem,
        quotLoop g number ((dn : Nat) : Int) k ((t : Nat) : Int) idx oob =
          .ok (ans, true) ∧
        ans.length = number.length - idx ∧ (∀ x ∈ ans, x ≤ 9) ∧
        ans.headD 0 = t / dn ∧ rem < dn ∧
        valM ans * dn + rem =
          t * 10 ^ (number.length - 1 - idx) + valM (number.drop (idx + 1)) := by
  intro k
  induction k with
  | zero =>
    intro idx t oob hk hidx _
    omega
  | succ k2 ih =>
    intro idx t oob hk hidx ht
    have hdne : ¬ ((dn : Nat) : Int) = 0 := by omega
    have hq := int_div_byte t dn hd0 ht
    by_cases hnext : idx + 1 < number.length
    · -- not the last iteration: the read is in bounds
      have hk2 : k2 = number.length - (idx + 1) := by omega
      have hdigit : number.get ⟨idx + 1, hnext⟩ ≤ 9 :=
        hdig _ (List.get_mem _ _ _)
      have ht'lt : (t % dn) * 10 + number.get ⟨idx + 1, hnext⟩ < 10 * dn := by
        have := Nat.mod_lt t hd0
        omega
      obtain ⟨ans2, rem2, hq2, hlen2, hdig2, hhead2, hrem2, hval2⟩ :=
        ih (idx + 1) ((t % dn) * 10 + number.get ⟨idx + 1, hnext⟩) oob hk2
          hnext ht'lt
      have hwrap : wrap32 (((t : Nat) : Int).tmod ((dn : Nat) : Int) * 10 +
          ((number.get ⟨idx + 1, hnext⟩ : Nat) : Int)) =
          (((t % dn) * 10 + number.get ⟨idx + 1, hnext⟩ : Nat) : Int) := by
        rw [int_mod_cast]
        have hmod := Nat.mod_lt t hd0
        rw [wrap32_eq_self _ (by omega) (by omega)]
        push_cast
        ring
      refine ⟨t / dn :: ans2, rem2, ?_, ?_, ?_, rfl, hrem2, ?_⟩
      · show (if _ = _ then _ else _) = _
        rw [if_neg hdne]
        dsimp only
        rw [readDigit_in g number (idx + 1) hnext]
        dsimp only
        rw [Bool.or_false, hwrap, hq2, hq]
      · rw [List.length_cons, hlen2]
        omega
      · intro x hx
        rcases List.mem_cons.mp hx with hx2 | hx2
        · subst hx2
          have hlt : t / dn < 10 := (Nat.div_lt_iff_lt_mul hd0).mpr (by omega)
          omega
        · exact hdig2 x hx2
      · -- the value invariant
        have hdrop : number.drop (idx + 1) =
            number.get ⟨idx + 1, hnext⟩ :: number.drop (idx + 2) := by
          rw [List.drop_eq_getElem_cons hnext]
          rfl
        have hdroplen : (number.drop (idx + 2)).length =
            number.length - idx - 2 := by
          rw [List.length_drop]
          omega
        rw [valM_cons, hlen2, hdrop, valM_cons, hdroplen]
        have he : number.length - 1 - idx = (number.length - 1 - (idx + 1)) + 1 := by
          omega
        have he2 : number.length - 1 - (idx + 1) = number.length - idx - 2 := by
          omega
        rw [he, he2, pow_succ,
          show number.length - (idx + 1) = (number.length - idx - 2) + 1
            by omega, pow_succ]
        have hdm : dn * (t / dn) + t % dn = t := Nat.div_add_mod t dn
        rw [he2] at hval2
        zify at hval2 hdm ⊢
        linear_combination hval2 + (10 : Int) ^ (number.length - idx - 2) *
          10 * hdm
    · -- last iteration: idx + 1 = number.length, the read is out of bounds
      have hlast : number.length = idx + 1 := by omega
      have hk0 : k2 = 0 := by omega
      subst hk0
      refine ⟨[t / dn], t % dn, ?_, ?_, ?_, rfl, Nat.mod_lt t hd0, ?_⟩
      · show (if _ = _ then _ else _) = _
        rw [if_neg hdne]
        dsimp only
        rw [readDigit_out g number (idx + 1) (by omega)]
        dsimp only
        rw [Bool.or_true, hq]
        rfl
      · simp
        omega
      · intro x hx
        rcases List.mem_cons.mp hx with hx2 | hx2
        · subst hx2
          have hlt : t / dn < 10 := (Nat.div_lt_iff_lt_mul hd0).mpr (by omega)
          omega
        · simp at hx2
      · rw [List.drop_eq_nil_of_le (by omega),
          show number.length - 1 - idx = 0 by omega, pow_zero]
        have h1 : valM [t / dn] = t / dn := by simp [valM]
        rw [h1, mul_comm (t / dn) dn]
        have hdm := Nat.div_add_mod t dn
        simp [valM]
        omega

theorem divide_correct_aux (g : Nat → Nat) (fuel : Nat) (number : List Nat)
    (dn : Nat) (hd0 : 0 < dn) (hw : 10 * dn ≤ 2 ^ 31)
    (hdig : ∀ x ∈ number, x ≤ 9) (hge : dn ≤ valM number)
    (hfuel : number.length ≤ fuel) :
    divide g fuel number ((dn : Nat) : Int) =
      .ok (natDigits (valM number / dn), true) := by
  have hne : number ≠ [] := by
    intro h
    rw [h] at hge
    simp [valM] at hge
    omega
  have hlen0 : 0 < number.length := List.length_pos.mpr hne
  simp only [divide]
  rw [readDigit_in g number 0 hlen0]
  dsimp only
  rw [show ((number.get ⟨0, hlen0⟩ : Nat) : Int) =
    ((valM (number.take (0 + 1)) : Nat) : Int) by
      rw [valM_take_one number hlen0]]
  obtain ⟨k, hk0, hk1, hseed, hkge, hkprev⟩ :=
    seedLoop_correct g number dn hd0 hw hdig hge fuel 0 false hlen0
      (by omega) (by omega)
  rw [hseed]
  dsimp only
  have htlt : valM (number.take (k + 1)) < 10 * dn := by
    rcases Nat.eq_zero_or_pos k with hk | hk
    · subst hk
      have h1 : valM (number.take (0 + 1)) = number.get ⟨0, hlen0⟩ :=
        valM_take_one number hlen0
      have h2 : number.get ⟨0, hlen0⟩ ≤ 9 := hdig _ (List.get_mem _ _ _)
      omega
    · obtain ⟨j, hj⟩ : ∃ j, k = j + 1 := ⟨k - 1, by omega⟩
      subst hj
      have hjlt : j + 1 < number.length := hk1
      have hstep : valM (number.take (j + 1 + 1)) =
          10 * valM (number.take (j + 1)) + number.get ⟨j + 1, hjlt⟩ :=
        valM_take_succ number j hjlt
      have hprevj := hkprev j (by omega)
      have hdj : number.get ⟨j + 1, hjlt⟩ ≤ 9 := hdig _ (List.get_mem _ _ _)
      omega
  obtain ⟨ans, rem, hquot, hlen, hansdig, hhead, hrem, hval⟩ :=
    quotLoop_correct g number dn hd0 hw hdig (number.length - k) k
      (valM (number.take (k + 1))) false rfl hk1 htlt
  rw [hquot]
  dsimp only
  have hne2 : ans.isEmpty = false := by
    cases ans with
    | nil =>
      simp at hlen
      omega
    | cons x t => rfl
  rw [hne2]
  rw [if_neg (by simp)]
  have hsplit : valM number = valM (number.take (k + 1)) *
      10 ^ (number.length - 1 - k) + valM (number.drop (k + 1)) := by
    have h1 := valM_append (number.take (k + 1)) (number.drop (k + 1))
    rw [List.take_append_drop] at h1
    rw [h1, List.length_drop,
      show number.length - (k + 1) = number.length - 1 - k by omega]
  have hvq : valM ans = valM number / dn := by
    rw [hsplit, ← hval, mul_comm (valM ans) dn, Nat.mul_add_div (by omega),
      Nat.div_eq_of_lt hrem, Nat.add_zero]
  have hcanon : natDigits (valM ans) = ans := by
    apply natDigits_of_canonical ans hansdig
    · intro h
      rw [h] at hlen
      simp at hlen
      omega
    · rw [hhead]
      have h1 := (Nat.one_le_div_iff hd0).mpr hkge
      omega
  rw [← hvq, hcanon]

/-- C7 (amended): the divide kernel's running remainder `temp` is a
32-bit C `int`, not an `Int256`, so the range that must contain the
divisor and every intermediate remainder is the 32-bit one, not the
256-bit one the claim states.  Under that corrected precondition
(`0 < d` and `10·d ≤ 2^31`, so no update wraps), valid digits, and a
numerator value of at least `d` (the seeding loop then stays inside the
digit vector), the kernel returns exactly the decimal digit sequence of
`⌊value(number)/d⌋`. -/
theorem divide_correct_int32 (g : Nat → Nat) (fuel : Nat) (number : List Nat)
    (d : Int) (hd0 : 0 < d) (hw : 10 * d ≤ 2 ^ 31)
    (hdig : ∀ x ∈ number, x ≤ 9) (hge : d.toNat ≤ valM number)
    (hfuel : number.length ≤ fuel) :
    divide g fuel number d = .ok (natDigits (valM number / d.toNat), true) := by
  obtain ⟨dn, rfl⟩ : ∃ dn : Nat, d = ((dn : Nat) : Int) := ⟨d.toNat, by omega⟩
  rw [show ((dn : Nat) : Int).toNat = dn from rfl] at hge ⊢
  exact divide_correct_aux g fuel number dn (by omega) (by omega) hdig hge hfuel

/-- Witness for C7 at `number = [1, 0, 0]`, `d = 4`: the kernel returns
the digits of 100 / 4 = 25. -/
theorem divide_correct_int32_witness :
    divide (fun _ => 0) 5 [1, 0, 0] 4 = .ok ([2, 5], true) := by
  have h := divide_correct_int32 (fun _ => 0) 5 [1, 0, 0] 4 (by norm_num)
    (by norm_num) (by decide) (by decide) (by decide)
  rw [h]
  rfl

theorem divideExecute_char (g : Nat → Nat) (fuel : Nat) (a b : Int)
    (sa sb rs : Nat) (hb : 0 < b) (hw : 10 * b ≤ 2 ^ 31) (_hscale : sa ≤ sb)
    (hge : b.toNat ≤ a.natAbs * 10 ^ (sb - sa + rs))
    (hfuel : (natDigits a.natAbs).length + (sb - sa) + rs ≤ fuel) :
    divideExecute g fuel a b sa sb rs =
      if 76 < (natDigits (a.natAbs * 10 ^ (sb - sa + rs) / b.toNat)).length
      then .error .overflow
      else .ok ((if a < 0 then -1 else 1) *
        ((a.natAbs * 10 ^ (sb - sa + rs) / b.toNat : Nat) : Int)) := by
  simp only [divideExecute]
  rw [getDigits_abs a]
  have hval : valM ((natDigits a.natAbs ++ List.replicate (sb - sa) 0) ++
      List.replicate rs 0) = a.natAbs * 10 ^ (sb - sa + rs) := by
    rw [valM_append, valM_append, valM_replicate_zero, valM_replicate_zero,
      List.length_replicate, List.length_replicate, valM_natDigits,
      Nat.add_zero, Nat.add_zero, mul_assoc, ← pow_add]
  have hdig : ∀ x ∈ (natDigits a.natAbs ++ List.replicate (sb - sa) 0) ++
      List.replicate rs 0, x ≤ 9 := by
    intro x hx
    rcases List.mem_append.mp hx with h1 | h1
    · rcases List.mem_append.mp h1 with h2 | h2
      · exact natDigits_digits_le _ x h2
      · have := List.eq_of_mem_replicate h2
        omega
    · have := List.eq_of_mem_replicate h1
      omega
  have hlen : ((natDigits a.natAbs ++ List.replicate (sb - sa) 0) ++
      List.replicate rs 0).length ≤ fuel := by
    simp only [List.length_append, List.length_replicate]
    omega
  rw [divide_correct_int32 g fuel _ b hb hw hdig (by rw [hval]; exact hge) hlen]
  dsimp only
  rw [hval, if_neg (by omega : ¬ b < 0)]
  by_cases hover : 76 <
      (natDigits (a.natAbs * 10 ^ (sb - sa + rs) / b.toNat)).length
  · rw [if_pos hover, if_pos hover]
  · rw [if_neg hover, if_neg hover, fromDigits_eq_valM, valM_natDigits, mul_one]

/-- C2 (amended): for a positive divisor `b` whose tenfold stays within
the 32-bit `int` range of the kernel's remainder, `scaleA ≤ scaleB`, and
`|a|·10^(scaleB−scaleA+resultScale) ≥ b` (so the kernel's seeding loop
stays inside the digit vector), `divideDecimal(a, b)` returns
`sign(a)·⌊|a|·10^(scaleB−scaleA+resultScale)/b⌋` — the exact quotient
floor-truncated to `resultScale` fractional digits — or OverflowError
when that quotient needs more than 76 digits.  The transform passes
`b.value` itself to the kernel, NOT `|b|`, which is why `b > 0` is
required; and it performs no compensating adjustment when
`scaleA > scaleB` (see the counterexample). -/
theorem divideDecimal_exact (g : Nat → Nat) (fuel : Nat) (a b : Int)
    (sa sb rs : Nat) (hb : 0 < b) (hw : 10 * b ≤ 2 ^ 31) (hscale : sa ≤ sb)
    (hge : b.toNat ≤ a.natAbs * 10 ^ (sb - sa + rs))
    (hfuel : (natDigits a.natAbs).length + (sb - sa) + rs ≤ fuel) :
    divideExecute g fuel a b sa sb rs =
      if 76 < (natDigits (a.natAbs * 10 ^ (sb - sa + rs) / b.toNat)).length
      then .error .overflow
      else .ok ((if a < 0 then -1 else 1) *
        ((a.natAbs * 10 ^ (sb - sa + rs) / b.toNat : Nat) : Int)) :=
  divideExecute_char g fuel a b sa sb rs hb hw hscale hge hfuel

/-- Witness for C2 at `a = 100`, `b = 4` (scales 0), result scale 2:
divideDecimal(100, 4, 2) = 2500 (i.e. 25.00). -/
theorem divideDecimal_exact_witness :
    divideExecute (fun _ => 0) 10 100 4 0 0 2 = .ok 2500 := by
  have h := divideDecimal_exact (fun _ => 0) 10 100 4 0 0 2 (by norm_num)
    (by norm_num) (by omega) (by decide) (by decide)
  rw [h, if_neg (by decide)]
  rfl

/-- C2 counterexample: `a = 100` at scale 2 (the decimal 1.00), `b = 1`
at scale 0, result scale 0.  The exact quotient is 1.00 / 1 = 1 (second
conjunct), but the transform performs no compensating adjustment when
`scaleA > scaleB` and returns 100. -/
theorem divideDecimal_scale_mismatch :
    divideExecute (fun _ => 0) 10 100 1 2 0 0 = .ok 100 ∧
      (100 : Nat) * 10 ^ (0 + 0) / (1 * 10 ^ 2) = 1 :=
  ⟨by decide, by decide⟩

set_option maxRecDepth 4000

/-- C3 counterexample: `a = 10^38`, `b = 10^37` (scales 0, result scale
0).  The exact product is `10^75`, which needs exactly 76 digits (second
conjunct) and so by the claim must succeed — but multiplyDecimal throws
DECIMAL_OVERFLOW, because its guard tests the unstripped working sequence
of `39 + 38 = 77` digits, not the true digit count. -/
theorem overflow_76digit_spurious :
    multiplyExecute (10 ^ 38) (10 ^ 37) 0 0 0 = .error .overflow ∧
      (natDigits ((10 : Nat) ^ 38 * 10 ^ 37)).length = 76 := by
  have ha : ((10 : Int) ^ 38).natAbs = 10 ^ 38 := by decide
  have hb : ((10 : Int) ^ 37).natAbs = 10 ^ 37 := by decide
  constructor
  · simp only [multiplyExecute]
    rw [getDigits_abs, getDigits_abs, ha, hb]
    have hlen : (multiply (natDigits (10 ^ 38)) (natDigits (10 ^ 37))).length
        = 77 := by
      rw [multiply_length _ _ (natDigits_ne_nil _) (natDigits_ne_nil _)
        (by rw [valM_natDigits, valM_natDigits]; positivity)]
      rw [show (natDigits ((10 : Nat) ^ 38)).length = 39 by decide,
        show (natDigits ((10 : Nat) ^ 37)).length = 38 by decide]
    rw [if_neg (show ¬ ((0 : Nat) + 0 < 0) by omega),
      if_neg (show ¬ ((0 : Nat) < 0 + 0) by omega)]
    dsimp only
    rw [hlen, if_pos (by omega)]
  · decide

/-- C3 (amended): on success the returned magnitude fits in 76 digits —
unconditionally for multiplyDecimal, and for divideDecimal only under the
kernel's preconditions (positive divisor with `10 * b ≤ 2^31`,
`scaleA ≤ scaleB`, padded numerator at least the divisor, enough fuel);
equivalently, under those conditions no result needing more than 76
digits is ever returned.  Outside them the bound genuinely fails: a
negative divisor makes the byte-narrowed quotient cells exceed 9, so a
sequence of at most 76 cells can pass the guard while encoding a
magnitude of `10^76` or more.  And a multiply result needing exactly 76
digits can still fail spuriously, because the guard tests the unstripped
`len1 + len2` working length (see the counterexample). -/
theorem overflow_guard_sound :
    (∀ (a b : Int) (sa sb rs : Nat) (r : Int),
      multiplyExecute a b sa sb rs = .ok r → r.natAbs < 10 ^ 76) ∧
    (∀ (g : Nat → Nat) (fuel : Nat) (a b : Int) (sa sb rs : Nat) (r : Int),
      0 < b → 10 * b ≤ 2 ^ 31 → sa ≤ sb →
      b.toNat ≤ a.natAbs * 10 ^ (sb - sa + rs) →
      (natDigits a.natAbs).length + (sb - sa) + rs ≤ fuel →
      divideExecute g fuel a b sa sb rs = .ok r → r.natAbs < 10 ^ 76) := by
  constructor
  · intro a b sa sb rs r h
    obtain ⟨m, hlen, hd, _, hr⟩ := multiplyExecute_char a b sa sb rs r h
    have hv : valM m < 10 ^ 76 :=
      lt_of_lt_of_le (valM_lt_pow m hd)
        (pow_le_pow_right₀ (by norm_num) hlen)
    rw [hr]
    by_cases ha : a < 0 <;> by_cases hb : b < 0 <;> simp [ha, hb] <;> omega
  · intro g fuel a b sa sb rs r hb hw hscale hge hfuel h
    rw [divideExecute_char g fuel a b sa sb rs hb hw hscale hge hfuel] at h
    by_cases hover : 76 <
        (natDigits (a.natAbs * 10 ^ (sb - sa + rs) / b.toNat)).length
    · rw [if_pos hover] at h
      exact absurd h (by simp)
    · rw [if_neg hover] at h
      have hr := Except.ok.inj h
      have hq : a.natAbs * 10 ^ (sb - sa + rs) / b.toNat < 10 ^ 76 := by
        have h1 := valM_lt_pow
          (natDigits (a.natAbs * 10 ^ (sb - sa + rs) / b.toNat))
          (natDigits_digits_le _)
        rw [valM_natDigits] at h1
        exact lt_of_lt_of_le h1 (pow_le_pow_right₀ (by norm_num) (by omega))
      rw [← hr, Int.natAbs_mul]
      have h1 : (if a < 0 then (-1 : Int) else 1).natAbs = 1 := by
        by_cases ha : a < 0 <;> simp [ha]
      rw [h1, one_mul, Int.natAbs_ofNat]
      exact hq

/-- Witness for C3 at the successful calls multiplyDecimal(1.23, 4.56)
(scale 4) and divideDecimal(100, 4, 2). -/
theorem overflow_guard_sound_witness :
    (56088 : Int).natAbs < 10 ^ 76 ∧ (2500 : Int).natAbs < 10 ^ 76 := by
  constructor
  · exact overflow_guard_sound.1 123 456 2 2 4 56088 (by decide)
  · exact overflow_guard_sound.2 (fun _ => 0) 10 100 4 0 0 2 2500 (by norm_num)
      (by norm_num) (by omega) (by decide) (by decide) (by decide)

/-- C10 counterexample: a third argument that is a constant UInt8 column
holding 80 is "an unsigned integer whose value exceeds 76", so the claim
demands a TypeError — but `isUnsignedInteger` accepts it and
`checkAndGetColumnConst<ColumnUInt16>` then returns a null pointer for
the UInt8 column, which the scale extraction dereferences (undefined
behaviour, no exception of any kind). -/
theorem validator_uint8_nullDeref :
    getReturnTypeImpl [.dec 2, .dec 2, .uint 8 true 80] =
        .error .nullDeref ∧
      ValErr.nullDeref ≠ ValErr.illegalType :=
  ⟨by decide, by decide⟩

/-- C10 (amended): an argument count other than 2 or 3 raises ArityError;
a non-decimal first or second argument raises TypeError; a third argument
that is not an unsigned integer raises TypeError; a third argument that
is a constant UInt16 with value above 76 raises TypeError; and every such
validation error aborts the call before any row is processed.  However, a
third argument that is unsigned but not a constant UInt16 column causes a
null-pointer dereference during scale extraction instead of the TypeError
the claim states. -/
theorem validator_eager_errors :
    (∀ args : List ArgKind, args.length ≠ 2 → args.length ≠ 3 →
      getReturnTypeImpl args = .error .arity) ∧
    (∀ args : List ArgKind, args.length = 2 ∨ args.length = 3 →
      (isDecimalArg (args.getD 0 .other) = false ∨
        isDecimalArg (args.getD 1 .other) = false) →
      getReturnTypeImpl args = .error .illegalType) ∧
    (∀ a0 a1 t : ArgKind, isDecimalArg a0 = true → isDecimalArg a1 = true →
      isUnsignedIntegerArg t = false →
      getReturnTypeImpl [a0, a1, t] = .error .illegalType) ∧
    (∀ s0 s1 v : Nat, 76 < v →
      getReturnTypeImpl [.dec s0, .dec s1, .uint 16 true v] =
        .error .illegalType) ∧
    (∀ (args : List ArgKind) (e : ValErr) (process : Nat × Nat → List Int),
      getReturnTypeImpl args = .error e →
      runFunction args process = .error e) := by
  refine ⟨?_, ?_, ?_, ?_, ?_⟩
  · intro args h2 h3
    rw [getReturnTypeImpl, if_pos ⟨h2, h3⟩]
  · intro args hlen hdec
    rw [getReturnTypeImpl, if_neg (by omega)]
    rw [if_pos (by
      rcases hdec with h | h
      · exact Or.inl (by rw [h]; simp)
      · exact Or.inr (by rw [h]; simp))]
  · intro a0 a1 t hd0 hd1 hu
    rw [getReturnTypeImpl, if_neg (by simp)]
    rw [if_neg (by simp [hd0, hd1])]
    rw [if_pos (by simp [hu])]
  · intro s0 s1 v hv
    rw [getReturnTypeImpl, if_neg (by simp), if_neg (by simp [isDecimalArg]),
      if_neg (by simp [isUnsignedIntegerArg]),
      if_pos (show ([ArgKind.dec s0, ArgKind.dec s1,
        ArgKind.uint 16 true v] : List ArgKind).length = 3 from rfl),
      show checkAndGetColumnConstUInt16
        (([ArgKind.dec s0, ArgKind.dec s1, ArgKind.uint 16 true v] :
          List ArgKind).getD 2 .other) = some v from rfl]
    dsimp only
    rw [if_neg (by omega)]
  · intro args e process h
    rw [runFunction, h]

/-- Witness for C10 at concrete argument lists: arity 1, a non-decimal
second argument, a string-like third argument, and a constant UInt16
scale of 80. -/
theorem validator_eager_errors_witness :
    getReturnTypeImpl [.dec 0] = .error .arity ∧
      getReturnTypeImpl [.dec 0, .other] = .error .illegalType ∧
      getReturnTypeImpl [.dec 0, .dec 1, .other] = .error .illegalType ∧
      getReturnTypeImpl [.dec 0, .dec 1, .uint 16 true 80] =
        .error .illegalType ∧
      runFunction [.dec 0] (fun _ => [0]) = .error .arity := by
  refine ⟨?_, ?_, ?_, ?_, ?_⟩
  · exact validator_eager_errors.1 [.dec 0] (by decide) (by decide)
  · exact validator_eager_errors.2.1 [.dec 0, .other] (by decide)
      (by decide)
  · exact validator_eager_errors.2.2.1 (.dec 0) (.dec 1) .other (by decide)
      (by decide) (by decide)
  · exact validator_eager_errors.2.2.2.1 0 1 80 (by omega)
  · exact validator_eager_errors.2.2.2.2 [.dec 0] .arity (fun _ => [0])
      (validator_eager_errors.1 [.dec 0] (by decide) (by decide))
